import Mathlib

/-
Verification development for the lectionary Reference Normalization and
Matching Engine (source: src/src/index.js and the unnamed drafts
src/unnamed/part_001, src/unnamed/part_002).

Shallow embedding conventions:
  - The JS code stores enumerated verses as strings "book.chapter.verse<letters>"
    inside a Set.  Book names contain no dot and partial letters are
    non-digits, so the string encodes exactly the four components below; we
    model the elements structurally as VerseId.  The JS Set keeps insertion
    order and deduplicates, modelled by insertVerse on a list.
  - bcv.translation_info(translation) supplies an ordered book list and a
    per-book list of chapter verse counts; modelled by Boundary.  In JS,
    chapters[book] is undefined for a book absent from the table and touching
    it throws (caught upstream); the claims below only concern books present
    in the table, so chapters is modelled total.
  - JS out-of-range array reads yield undefined; a comparison
    "currentVerse > undefined" is false.  The walk models that read as an
    Option and, on none, keeps incrementing the verse (the JS divergence),
    bounded here by explicit fuel.
-/

/-- One canonical verse: the components of the JS verse string
"book.chapter.verse<partLetter>" built at src/src/index.js lines 95/118/125. -/
structure VerseId where
  book : String
  chapter : Nat
  verse : Nat
  partLetter : String
deriving DecidableEq, Repr

/-- The BoundaryTable: ordered canonical book list and, per book, the list of
verse counts of its chapters (bcv.translation_info(translation).books and
.chapters). -/
structure Boundary where
  books : List String
  chapters : String → List Nat

/-- A book/chapter/verse position of the range walk in processEntity. -/
structure BPos where
  b : String
  c : Nat
  v : Nat
deriving DecidableEq, Repr

/-- JS Array.prototype.indexOf on the canonical book list: the index of the
first occurrence, or -1 when the book is absent (src/src/index.js lines
160-161). -/
def jsIndexOf (books : List String) (b : String) : Int :=
  if b ∈ books then (books.indexOf b : Int) else -1

/-- compareVerses (src/src/index.js lines 155-166).  The source splits the
verse string on "." and applies parseInt to the chapter and verse components;
on the strings produced by the enumerator this recovers exactly the VerseId
components, so the comparator is modelled on the structured form.  Partial
letters are ignored by parseInt and hence by the comparison. -/
def compareVerses (books : List String) (a b : VerseId) : Int :=
  let ai := jsIndexOf books a.book
  let bi := jsIndexOf books b.book
  if ai ≠ bi then ai - bi
  else if (a.chapter : Int) ≠ (b.chapter : Int) then (a.chapter : Int) - (b.chapter : Int)
  else (a.verse : Int) - (b.verse : Int)

/-- Lexicographic strict order on (book key, chapter, verse) triples. -/
def lexLt3 (x y : Int × Int × Int) : Prop :=
  x.1 < y.1 ∨ (x.1 = y.1 ∧ (x.2.1 < y.2.1 ∨ (x.2.1 = y.2.1 ∧ x.2.2 < y.2.2)))

/-- The sort key compareVerses actually uses: JS indexOf (so -1 for a book
unknown to the BoundaryTable), then chapter, then verse. -/
def vKey (books : List String) (x : VerseId) : Int × Int × Int :=
  (jsIndexOf books x.book, (x.chapter : Int), (x.verse : Int))

/-- Number of loop iterations the range walk can spend inside one chapter
(at least one: the emit that precedes the rollover test). -/
def chapterIter (n : Nat) : Nat := max n 1

/-- Iteration bound contributed by one whole book. -/
def bookIter (bt : Boundary) (b : String) : Nat :=
  ((bt.chapters b).map chapterIter).sum

/-- Iterations remaining inside the current chapter, starting from verse v of
a chapter declaring count verses. -/
def inChapterIter (count v : Nat) : Nat := max (count + 1 - v) 1

/-- Upper bound on the iterations the range walk performs from position p
before one of its break statements fires: the remainder of the current
chapter, the later chapters of the current book, and all later books. -/
def posMeasure (bt : Boundary) (p : BPos) : Nat :=
  ((bt.books.drop (bt.books.indexOf p.b + 1)).map (bookIter bt)).sum
    + (((bt.chapters p.b).drop p.c).map chapterIter).sum
    + inChapterIter ((bt.chapters p.b).getD (p.c - 1) 0) p.v

/-- The walk position is inside the BoundaryTable: known book, chapter number
between 1 and the book's chapter count. -/
def ValidPos (bt : Boundary) (p : BPos) : Prop :=
  p.b ∈ bt.books ∧ 1 ≤ p.c ∧ p.c ≤ (bt.chapters p.b).length

/-- Sanity of the BoundaryTable itself: no duplicate book names, and every
book has at least one chapter. -/
def WFBoundary (bt : Boundary) : Prop :=
  bt.books.Nodup ∧ ∀ b ∈ bt.books, bt.chapters b ≠ []

/-- One advance of the range walk (src/src/index.js lines 101-113): increment
the verse; past the chapter's verse count roll to the next chapter; past
the book's chapter count roll to the next book of the table; none models the
defensive break when the table's last book is passed (in JS,
bookIndex < 0 || bookIndex >= books.length - 1; List.indexOf returns the
length for an absent book, so the single test below covers both disjuncts).
A JS read chapters[b][c-1] that yields undefined makes the guard
"currentVerse > maxVerse" false, so the verse keeps incrementing: that is the
none branch of the lookup. -/
def rangeStep (bt : Boundary) (p : BPos) : Option BPos :=
  let v1 := p.v + 1
  match (if p.c = 0 then none else (bt.chapters p.b)[p.c - 1]?) with
  | none => some ⟨p.b, p.c, v1⟩
  | some maxVerse =>
    if v1 > maxVerse then
      let c1 := p.c + 1
      let maxChapter := (bt.chapters p.b).length
      if c1 > maxChapter then
        let bookIndex := bt.books.indexOf p.b
        if bookIndex + 1 ≥ bt.books.length then none
        else some ⟨bt.books.getD (bookIndex + 1) "", 1, 1⟩
      else some ⟨p.b, c1, 1⟩
    else some ⟨p.b, p.c, v1⟩

/-- How the while(true) loop of the range walk ended: by matching the end
identifier, by the defensive last-book break, or (model only) by running out
of fuel, which corresponds to the JS loop not terminating. -/
inductive WalkExit where
  | matched
  | overrun
  | fuelOut
deriving DecidableEq, Repr

/-- The while(true) loop at src/src/index.js lines 92-114: every iteration
first emits the current position with the partial letter of entity.start
(line 94 recomputes entity.start.partial_verse inside the loop, so every
emitted verse carries the range start's letter), then tests the end
identifier, then advances. -/
def walkAux (bt : Boundary) (endP : BPos) (startPart : String) :
    Nat → BPos → List VerseId × WalkExit
  | 0, _ => ([], WalkExit.fuelOut)
  | fuel + 1, p =>
    let emitted : VerseId := ⟨p.b, p.c, p.v, startPart⟩
    if p.b = endP.b ∧ p.c = endP.c ∧ p.v = endP.v then
      ([emitted], WalkExit.matched)
    else
      match rangeStep bt p with
      | none => ([emitted], WalkExit.overrun)
      | some p2 =>
        let r := walkAux bt endP startPart fuel p2
        (emitted :: r.1, r.2)

/-- JS Set.add: append if not already present (insertion order preserved). -/
def insertVerse (vs : List VerseId) (v : VerseId) : List VerseId :=
  if v ∈ vs then vs else vs ++ [v]

/-- Sequentially Set.add every element of l. -/
def addAll (vs : List VerseId) (l : List VerseId) : List VerseId :=
  l.foldl insertVerse vs

/-- The tagged parse entities processEntity handles (src/src/index.js lines
71-153): sequences/nested lists, ranges, single verses (bcv), whole chapters
(bc) and whole books (b). -/
inductive Entity where
  | seq (entities : List Entity)
  | range (sb : String) (sc sv : Nat) (startPart : String) (eb : String) (ec ev : Nat)
  | bcv (b : String) (c v : Nat) (part : String)
  | bc (b : String) (c : Nat)
  | book (b : String)

mutual

/-- processEntity (src/src/index.js lines 71-153), with the verse Set passed
and returned explicitly.  The range branch runs the walk with fuel
posMeasure, which the termination theorem below shows is never exhausted on
a well-formed table and valid start, matching the JS loop's breaks. -/
def processEntity (bt : Boundary) : Entity → List VerseId → List VerseId
  | Entity.seq es, vs => processEntityList bt es vs
  | Entity.range sb sc sv sp eb ec ev, vs =>
      addAll vs (walkAux bt ⟨eb, ec, ev⟩ sp (posMeasure bt ⟨sb, sc, sv⟩) ⟨sb, sc, sv⟩).1
  | Entity.bcv b c v part, vs => insertVerse vs ⟨b, c, v, part⟩
  | Entity.bc b c, vs =>
      let n := if c = 0 then 0 else ((bt.chapters b)[c - 1]?).getD 0
      addAll vs ((List.range n).map (fun k => ⟨b, c, k + 1, ""⟩))
  | Entity.book b, vs =>
      addAll vs ((List.range (bt.chapters b).length).flatMap (fun ci =>
        (List.range ((bt.chapters b).getD ci 0)).map (fun k => ⟨b, ci + 1, k + 1, ""⟩)))

/-- The sequence/nested-entities loop of processEntity. -/
def processEntityList (bt : Boundary) : List Entity → List VerseId → List VerseId
  | [], vs => vs
  | e :: es, vs => processEntityList bt es (processEntity bt e vs)

end

/-
Reference Normalizer machinery (src/unnamed/part_001 lines 357-507 and its
near-duplicate src/unnamed/part_002 lines 556-706).  JS regular expressions
over cell text are modelled by explicit scanners on the character list; JS
global replace semantics (leftmost match, continue after the replacement,
greedy quantifiers) are reproduced by the scanners.  The \s class is modelled
by Char.isWhitespace; the cell strings involved use only ASCII whitespace.
Scanners recurse on explicit fuel (length + 1 always suffices since every
step consumes at least one character), keeping them kernel-evaluable.
-/

/-- Whitespace test standing in for the JS \s class. -/
def isWs (c : Char) : Bool := c.isWhitespace

/-- Match of the splitting regex /\s+or\s+/i at the head of the list: one or
more whitespace, the letters o r in any case, one or more whitespace; returns
the remainder after the (greedy) match. -/
def matchOrSep (l : List Char) : Option (List Char) :=
  match l with
  | [] => none
  | c :: _ =>
    if isWs c then
      match l.dropWhile isWs with
      | o :: r :: rest =>
        if o.toLower = 'o' && r.toLower = 'r' then
          match rest with
          | c2 :: _ => if isWs c2 then some (rest.dropWhile isWs) else none
          | [] => none
        else none
      | _ => none
    else none

/-- reference.split(/\s+or\s+/i) (part_002 line 594): scan left to right,
breaking at every separator match. -/
def splitOrAux : Nat → List Char → List Char → List String
  | 0, acc, l => [String.mk (acc.reverse ++ l)]
  | _, acc, [] => [String.mk acc.reverse]
  | fuel + 1, acc, c :: rest =>
    match matchOrSep (c :: rest) with
    | some rem => String.mk acc.reverse :: splitOrAux fuel [] rem
    | none => splitOrAux fuel (c :: acc) rest

/-- The candidate options of a citation: split on the word "or". -/
def splitOr (s : String) : List String :=
  splitOrAux (s.length + 1) [] s.data

/-- options[0].match(/^(\d*\s*[A-Za-z]+)/) (part_002 lines 598-601): a run of
digits, a run of whitespace, then at least one ASCII letter; empty string
when there is no match (bookName stays ''). -/
def extractBookName (s : String) : String :=
  let ds := s.data.takeWhile Char.isDigit
  let r1 := s.data.dropWhile Char.isDigit
  let ws := r1.takeWhile isWs
  let letters := (r1.dropWhile isWs).takeWhile Char.isAlpha
  if letters = [] then "" else String.mk (ds ++ ws ++ letters)

/-- JS String.prototype.trim, on the character list: drop whitespace at both
ends (String.trim itself is byte-position based and is avoided so that the
scanners stay kernel-evaluable). -/
def trimChars (l : List Char) : List Char :=
  ((l.dropWhile isWs).reverse.dropWhile isWs).reverse

/-- JS String.prototype.startsWith, on the character lists. -/
def strStartsWith (s pre : String) : Bool :=
  s.data.take pre.data.length = pre.data

/-- /^\d/.test(option.trim()) (part_002 line 608). -/
def startsWithDigit (s : String) : Bool :=
  match trimChars s.data with
  | [] => false
  | c :: _ => c.isDigit

/-- The partial-reference completion loop head (part_002 lines 596-610):
candidates after the first that start with a digit get the book name of the
first candidate prepended, provided a book name was extracted. -/
def completeCandidates (options : List String) : List String :=
  let bookName := extractBookName (options.headD "")
  options.mapIdx (fun i o =>
    if 0 < i ∧ startsWithDigit o = true ∧ bookName ≠ "" then bookName ++ " " ++ o else o)

/-- Candidate option strings of one citation cell, after the "or" split and
book-name completion (part_002 lines 594-610). -/
def candidateStrings (reference : String) : List String :=
  completeCandidates (splitOr reference)

/-- replace(/^opt:\s*/i, '') (part_002 line 651). -/
def stripOptMarker (l : List Char) : List Char :=
  match l with
  | o :: p :: t :: colon :: rest =>
    if o.toLower = 'o' && p.toLower = 'p' && t.toLower = 't' && colon = ':' then
      rest.dropWhile isWs
    else l
  | _ => l

/-- replace(/(\d+)\+(\d+)/g, '$1,$2') (part_002 line 652): a plus between two
digit runs becomes a comma. -/
def plusDigitsAux : Nat → List Char → List Char
  | 0, l => l
  | _, [] => []
  | fuel + 1, c :: rest =>
    if c.isDigit then
      match (c :: rest).dropWhile Char.isDigit with
      | '+' :: a2 =>
        if (a2.headD ' ').isDigit then
          ((c :: rest).takeWhile Char.isDigit) ++ ',' :: (a2.takeWhile Char.isDigit)
            ++ plusDigitsAux fuel (a2.dropWhile Char.isDigit)
        else c :: plusDigitsAux fuel rest
      | _ => c :: plusDigitsAux fuel rest
    else c :: plusDigitsAux fuel rest

/-- replace(/[‒–—―]/g, '-') (part_002 line 653). -/
def normalizeDashes (l : List Char) : List Char :=
  l.map (fun c => if c = '‒' ∨ c = '–' ∨ c = '—' ∨ c = '―' then '-' else c)

/-- Does /\s*-\s*Vg.*/ match at the head of the list? -/
def matchDashVg (l : List Char) : Bool :=
  match l.dropWhile isWs with
  | '-' :: r1 =>
    match r1.dropWhile isWs with
    | 'V' :: 'g' :: _ => true
    | _ => false
  | _ => false

/-- replace(/\s*-\s*Vg.*|\(new\)|\(diff\)/g, '') (part_002 line 654).  The
first alternative consumes to the end of the cell (cell text holds no
newline), the literals are dropped in place. -/
def stripAnnotAux : Nat → List Char → List Char
  | 0, l => l
  | _, [] => []
  | fuel + 1, c :: rest =>
    if matchDashVg (c :: rest) then []
    else if (c :: rest).take 5 = ['(', 'n', 'e', 'w', ')'] then
      stripAnnotAux fuel ((c :: rest).drop 5)
    else if (c :: rest).take 6 = ['(', 'd', 'i', 'f', 'f', ')'] then
      stripAnnotAux fuel ((c :: rest).drop 6)
    else c :: stripAnnotAux fuel rest

/-- Match of /\s*,\s*/ at the head of the list; returns the remainder. -/
def commaSep (l : List Char) : Option (List Char) :=
  match l.dropWhile isWs with
  | ',' :: r1 => some (r1.dropWhile isWs)
  | _ => none

/-- replace(/\s*,\s*/g, ', ') (part_002 line 655). -/
def commaSpaceAux : Nat → List Char → List Char
  | 0, l => l
  | _, [] => []
  | fuel + 1, c :: rest =>
    match commaSep (c :: rest) with
    | some rem => ',' :: ' ' :: commaSpaceAux fuel rem
    | none => c :: commaSpaceAux fuel rest

/-- Match of /(\d+)\s*:\s*(\d+)/ at the head: both digit runs and the
remainder after the second run. -/
def colonMatch (l : List Char) : Option (List Char × List Char × List Char) :=
  match l with
  | [] => none
  | c :: _ =>
    if c.isDigit then
      match (l.dropWhile Char.isDigit).dropWhile isWs with
      | ':' :: r2 =>
        let r3 := r2.dropWhile isWs
        if (r3.headD ' ').isDigit then
          some (l.takeWhile Char.isDigit, r3.takeWhile Char.isDigit, r3.dropWhile Char.isDigit)
        else none
      | _ => none
    else none

/-- replace(/(\d+)\s*:\s*(\d+)/g, '$1:$2') (part_002 line 656). -/
def colonSpaceAux : Nat → List Char → List Char
  | 0, l => l
  | _, [] => []
  | fuel + 1, c :: rest =>
    match colonMatch (c :: rest) with
    | some (d1, d2, rem) => d1 ++ ':' :: d2 ++ colonSpaceAux fuel rem
    | none => c :: colonSpaceAux fuel rest

/-- replace(/\s+/g, ' ') (part_002 line 657). -/
def wsCollapseAux : Nat → List Char → List Char
  | 0, l => l
  | _, [] => []
  | fuel + 1, c :: rest =>
    if isWs c then ' ' :: wsCollapseAux fuel ((c :: rest).dropWhile isWs)
    else c :: wsCollapseAux fuel rest

/-- replace(/[^\x00-\x7F]/g, '-') (part_002 line 658). -/
def nonAsciiDash (l : List Char) : List Char :=
  l.map (fun c => if c.toNat ≤ 0x7F then c else '-')

/-- The standardReference cleaning pipeline (part_002 lines 650-659): strip
the opt: marker, turn + between verse numbers into a comma, normalize dashes,
strip the Vg/(new)/(diff) annotations, normalize comma and colon spacing,
collapse whitespace, replace non-ASCII characters, trim. -/
def cleanStandard (s : String) : String :=
  let l0 := stripOptMarker s.data
  let l1 := plusDigitsAux (l0.length + 1) l0
  let l2 := normalizeDashes l1
  let l3 := stripAnnotAux (l2.length + 1) l2
  let l4 := commaSpaceAux (l3.length + 1) l3
  let l5 := colonSpaceAux (l4.length + 1) l4
  let l6 := wsCollapseAux (l5.length + 1) l5
  String.mk (trimChars (nonAsciiDash l6))

/-- The note assembly of processReference (part_002 lines 661-696): push the
qualifiers in the fixed source order onto the notes array, then join with
"; ", or null when no qualifier applies.  The inputs are the attributes the
source computes per candidate at lines 612-627 (opt: marker, cf. marker,
the /\(short form\)/i test, the number of "or"-split options, the
"(cited in ...)" capture, the pending gospel title). -/
def buildNote (isOptional isCf hasShortForm : Bool) (optionCount : Nat)
    (citation gospelTitle : Option String) : Option String :=
  let notes : List String := []
  let notes := if isOptional then notes ++ ["optional"] else notes
  let notes := if isCf then notes ++ ["cf."] else notes
  let notes :=
    if hasShortForm then notes ++ ["short form"]
    else if optionCount > 1 then notes ++ ["alternative/option"] else notes
  let notes :=
    match citation with
    | some c => notes ++ ["cited in " ++ c]
    | none => notes
  let notes :=
    match gospelTitle with
    | some t => notes ++ [t]
    | none => notes
  if notes.length > 0 then some (String.intercalate "; " notes) else none

/-- Modelled from the spec's words (section 4.1 step 9): the qualifier list
assembled slot by slot in the fixed priority order optional, cf.,
short-form-or-alternative (short form winning), cited-in, gospel title, each
slot contributing at most one entry. -/
def specQualifiers (isOptional isCf hasShortForm : Bool) (optionCount : Nat)
    (citation gospelTitle : Option String) : List String :=
  (if isOptional then ["optional"] else [])
    ++ (if isCf then ["cf."] else [])
    ++ (if hasShortForm then ["short form"]
        else if optionCount > 1 then ["alternative/option"] else [])
    ++ (match citation with | some c => ["cited in " ++ c] | none => [])
    ++ (match gospelTitle with | some t => [t] | none => [])

/-
Day-Definition Matcher machinery (src/unnamed/part_002 lines 932-971,
src/src/index.js lines 418-541).
-/

/-- A romcal liturgical-day definition as seen by the keyword matcher: only
its id and name take part in scoring; JS missing/empty values are falsy, so
both are Options here with "" behaving like absence. -/
structure FeastDef where
  id : Option String
  name : Option String
deriving DecidableEq, Repr

/-- JS truthiness of a string field: present and non-empty. -/
def truthyStr (o : Option String) : Bool :=
  match o with
  | none => false
  | some s => !s.isEmpty

/-- JS String.prototype.includes: substring containment (the empty pattern is
always contained). -/
def strIncludes (s pat : String) : Bool :=
  if pat.isEmpty then true else (s.splitOn pat).length > 1

/-- The score of one catalogue entry (part_002 lines 941-950):
(#keywords found in the id) + 2 * (#keywords found in the name), keywords
already lowercased and the fields lowercased before the containment test. -/
def keywordScore (lowerKeywords : List String) (d : FeastDef) : Nat :=
  let idMatches := (lowerKeywords.filter (fun k => strIncludes ((d.id.getD "").toLower) k)).length
  let nameMatches :=
    (lowerKeywords.filter (fun k => strIncludes ((d.name.getD "").toLower) k)).length
  idMatches + 2 * nameMatches

/-- The scored, filtered candidate list of findFeastByKeywords (part_002
lines 939-954): entries with truthy id and name, scored, entries with score 0
discarded. -/
def scoredMatches (definitions : List FeastDef) (keywords : List String) :
    List (FeastDef × Nat) :=
  let lowerKeywords := keywords.map String.toLower
  ((definitions.filter (fun d => truthyStr d.id && truthyStr d.name)).map
    (fun d => (d, keywordScore lowerKeywords d))).filter (fun x => 0 < x.2)

/-- findFeastByKeywords (part_002 lines 932-971): score, filter, sort by
score descending and return the best match, or null.  JS
Array.prototype.sort with comparator (a, b) => b.score - a.score is a stable
sort (ES2019), modelled by the stable insertion sort. -/
def findFeastByKeywords (definitions : List FeastDef) (keywords : List String) :
    Option FeastDef :=
  let sorted := (scoredMatches definitions keywords).insertionSort (fun a b => b.2 ≤ a.2)
  sorted.head?.map (fun x => x.1)

/-- Maximal score of the candidate list (0 on an empty list). -/
def maxScore (l : List (FeastDef × Nat)) : Nat := (l.map (fun x => x.2)).foldr max 0

/-- Modelled from the spec's words (section 4.4 step 5): the first candidate,
in catalogue iteration order, attaining the highest score. -/
def specBestMatch (l : List (FeastDef × Nat)) : Option (FeastDef × Nat) :=
  l.find? (fun x => x.2 = maxScore l)

/-- Modelled from the spec's words: the keyword-scoring fallback returns the
highest-scoring id-and-name-bearing entry with positive score, ties broken by
catalogue iteration order, and no match when nothing scores above 0. -/
def specFindFeast (definitions : List FeastDef) (keywords : List String) :
    Option FeastDef :=
  (specBestMatch (scoredMatches definitions keywords)).map (fun x => x.1)

/-- A generated-calendar day as consulted by findMatchingRomcalDay: id,
seasons, calendar.dayOfWeek, calendar.weekOfSeason, cycles.sundayCycle. -/
structure RomcalDay where
  id : String
  seasons : List String
  dayOfWeek : Option Nat
  weekOfSeason : Option Nat
  sundayCycle : Option String
deriving DecidableEq, Repr, Inhabited

/-- The fixed identifier-to-romcal-id table (src/src/index.js lines 424-434). -/
def idMap : List (String × String) :=
  [("christmas_vigil", "christmas_vigil"), ("christmas_night", "christmas_1"),
   ("christmas_dawn", "christmas_2"), ("christmas_day", "christmas_3"),
   ("christmas", "christmas"), ("holy_family", "holy_family"),
   ("mary_mother_of_god", "mary_mother_of_god"), ("epiphany", "epiphany"),
   ("baptism_of_the_lord", "baptism_of_the_lord")]

/-- findMatchingRomcalDay (src/src/index.js lines 418-541).  The calendar is
the Object.entries list of (date, days) pairs in insertion order; days[0] is
modelled by headD.  The cascade: direct identifier mapping, date lookup,
exact season+week+cycle Sunday scan, then the season fallbacks.  The
source's tangled nested fallback loops (lines 504-537) are linearized into
sequential first-match scans; the claim verified about this function
(determinism) is insensitive to that linearization, which only affects which
entry the fallback prefers. -/
def findMatchingRomcalDay (cal : List (String × List RomcalDay)) (date season : Option String)
    (weekNumber : Option Nat) (cycle : Option String) (identifier : Option String) :
    Option RomcalDay :=
  let byId : Option RomcalDay :=
    match identifier.bind (fun ident => (idMap.find? (fun x => x.1 = ident)).map (fun x => x.2)) with
    | some romcalId =>
      (cal.find? (fun entry =>
        let day := entry.2.headD default
        day.id = romcalId || strIncludes day.id romcalId)).map (fun e => e.2.headD default)
    | none => none
  match byId with
  | some d => some d
  | none =>
    let byDate : Option RomcalDay :=
      match date with
      | some d =>
        if (d.splitOn "-").length = 2 then
          (cal.find? (fun entry => entry.1 = "2025-" ++ d)).map (fun e => e.2.headD default)
        else none
      | none => none
    match byDate with
    | some d => some d
    | none =>
      let normalizedSeason := season.map (fun s => s.toUpper)
      let exact : Option RomcalDay :=
        (cal.find? (fun entry =>
          let day := entry.2.headD default
          day.dayOfWeek = some 0 &&
            match day.seasons.head?, day.weekOfSeason, normalizedSeason, weekNumber with
            | some rs, some rw, some ns, some wn =>
              rw ≠ 0 && rs = ns && rw = wn && day.sundayCycle = cycle
            | _, _, _, _ => false)).map (fun e => e.2.headD default)
      match exact with
      | some d => some d
      | none =>
        match normalizedSeason with
        | none => none
        | some ns =>
          let byWeek : Option RomcalDay :=
            (cal.find? (fun entry =>
              let day := entry.2.headD default
              day.dayOfWeek = some 0 &&
                match day.seasons.head?, day.weekOfSeason, weekNumber with
                | some rs, some rw, some wn => rs = ns && rw = wn
                | _, _, _ => false)).map (fun e => e.2.headD default)
          match byWeek with
          | some d => some d
          | none =>
            (cal.find? (fun entry =>
              (entry.2.headD default).seasons.head? = some ns)).map
              (fun e => e.2.headD default)

/-- JS short-circuit || for a possibly absent string: null, undefined and ''
are falsy and yield the default. -/
def jsOrStr (v : Option String) (dflt : String) : String :=
  match v with
  | none => dflt
  | some s => if s.isEmpty then dflt else s

/-- The cycle assignment of processReadingRow (src/src/index.js lines
230-233 and 408-414): default the detected cycle to 'A' when falsy, then
append the row under that cycle's list.  The row content itself is abstracted
to one value; the claim concerns only where the row is filed. -/
def processReadingRow (cycle : Option String) (readings : String → List String)
    (row : String) : String → List String :=
  let cyc := jsOrStr cycle "A"
  fun k => if k = cyc then readings k ++ [row] else readings k

/-- Example BoundaryTable: Matthew with two chapters of 25 and 23 verses. -/
def btEx1 : Boundary :=
  ⟨["Matt"], fun b => if b = "Matt" then [25, 23] else []⟩

/-- Example BoundaryTable: Genesis (one chapter, 2 verses) followed by Exodus
(one chapter, 1 verse). -/
def btEx2 : Boundary :=
  ⟨["Gen", "Exod"], fun b => if b = "Gen" then [2] else if b = "Exod" then [1] else []⟩

/-- First element of the scored list attaining the running maximum: the
selection that a stable descending sort followed by head performs. -/
def pickFirstMax : List (FeastDef × Nat) → Option (FeastDef × Nat)
  | [] => none
  | x :: xs =>
    match pickFirstMax xs with
    | none => some x
    | some b => if b.2 ≤ x.2 then some x else some b

theorem mem_insertVerse (vs : List VerseId) (x v : VerseId) :
    v ∈ insertVerse vs x ↔ v ∈ vs ∨ v = x := by
  unfold insertVerse
  split_ifs with h
  · constructor
    · exact Or.inl
    · rintro (hv | rfl)
      · exact hv
      · exact h
  · simp

theorem insertVerse_nodup (vs : List VerseId) (x : VerseId) (h : vs.Nodup) :
    (insertVerse vs x).Nodup := by
  unfold insertVerse
  split_ifs with hx
  · exact h
  · simp [List.nodup_append, h, hx]

theorem mem_addAll (l : List VerseId) : ∀ (vs : List VerseId) (v : VerseId),
    v ∈ addAll vs l ↔ v ∈ vs ∨ v ∈ l := by
  induction l with
  | nil => intro vs v; simp [addAll]
  | cons x xs ih =>
    intro vs v
    have : addAll vs (x :: xs) = addAll (insertVerse vs x) xs := rfl
    rw [this, ih, mem_insertVerse]
    simp
    tauto

theorem addAll_nodup (l : List VerseId) : ∀ (vs : List VerseId), vs.Nodup →
    (addAll vs l).Nodup := by
  induction l with
  | nil => intro vs h; exact h
  | cons x xs ih =>
    intro vs h
    exact ih (insertVerse vs x) (insertVerse_nodup vs x h)

theorem addAll_of_disjoint (l : List VerseId) : ∀ (vs : List VerseId), l.Nodup →
    (∀ x ∈ l, x ∉ vs) → addAll vs l = vs ++ l := by
  induction l with
  | nil => intro vs _ _; simp [addAll]
  | cons x xs ih =>
    intro vs hnd hdisj
    have hx : x ∉ vs := hdisj x (by simp)
    have h1 : addAll vs (x :: xs) = addAll (vs ++ [x]) xs := by
      simp [addAll, insertVerse, hx]
    rw [h1, ih (vs ++ [x]) hnd.of_cons]
    · simp
    · intro y hy
      simp only [List.mem_append, List.mem_singleton]
      rintro (hyv | rfl)
      · exact hdisj y (by simp [hy]) hyv
      · exact (List.nodup_cons.1 hnd).1 hy

mutual

theorem processEntity_nodup (bt : Boundary) (e : Entity) (vs : List VerseId)
    (h : vs.Nodup) : (processEntity bt e vs).Nodup := by
  cases e with
  | seq es => simpa only [processEntity] using processEntityList_nodup bt es vs h
  | range sb sc sv sp eb ec ev => simpa only [processEntity] using addAll_nodup _ vs h
  | bcv b c v part => simpa only [processEntity] using insertVerse_nodup vs _ h
  | bc b c => simpa only [processEntity] using addAll_nodup _ vs h
  | book b => simpa only [processEntity] using addAll_nodup _ vs h

theorem processEntityList_nodup (bt : Boundary) (es : List Entity) (vs : List VerseId)
    (h : vs.Nodup) : (processEntityList bt es vs).Nodup := by
  cases es with
  | nil => simpa only [processEntityList] using h
  | cons e es =>
    simpa only [processEntityList] using
      processEntityList_nodup bt es _ (processEntity_nodup bt e vs h)

end

theorem walkAux_partLetter (bt : Boundary) (endP : BPos) (sp : String) :
    ∀ (fuel : Nat) (p : BPos) (v : VerseId),
      v ∈ (walkAux bt endP sp fuel p).1 → v.partLetter = sp := by
  intro fuel
  induction fuel with
  | zero => intro p v h; simp [walkAux] at h
  | succ n ih =>
    intro p v h
    rw [walkAux] at h
    by_cases hc : p.b = endP.b ∧ p.c = endP.c ∧ p.v = endP.v
    · rw [if_pos hc] at h
      simp only [List.mem_singleton] at h
      simp [h]
    · rw [if_neg hc] at h
      cases hs : rangeStep bt p with
      | none => rw [hs] at h; simp only [List.mem_singleton] at h; simp [h]
      | some p2 =>
        rw [hs] at h
        simp only [List.mem_cons] at h
        rcases h with h | h
        · simp [h]
        · exact ih p2 v h

/-- Claim C1 (corrected): the range walk of processEntity attaches the
range start's partial-verse letter to every verse it emits, the first and
all subsequent synthesized verses alike, because line 94 reads
entity.start.partial_verse on every iteration.  Any verse of the resulting
set either was already in the set or carries the start partial letter. -/
theorem claim_C1_range_partial :
    ∀ (bt : Boundary) (sb : String) (sc sv : Nat) (sp eb : String) (ec ev : Nat)
      (vs : List VerseId) (v : VerseId),
      v ∈ processEntity bt (Entity.range sb sc sv sp eb ec ev) vs →
      v ∈ vs ∨ v.partLetter = sp := by
  intro bt sb sc sv sp eb ec ev vs v h
  simp only [processEntity] at h
  rcases (mem_addAll _ vs v).1 h with h | h
  · exact Or.inl h
  · exact Or.inr (walkAux_partLetter bt _ sp _ _ v h)

/-- Claim C1 counterexample: expanding the range Matt 1:1a-1:2 emits the
second (synthesized) verse with the partial letter "a" as well, refuting the
claim that only the first emitted verse carries the start partial letter. -/
theorem claim_C1_counterexample :
    processEntity btEx1 (Entity.range "Matt" 1 1 "a" "Matt" 1 2) [] =
      [⟨"Matt", 1, 1, "a"⟩, ⟨"Matt", 1, 2, "a"⟩] ∧
    (⟨"Matt", 1, 2, "a"⟩ : VerseId).partLetter ≠ "" := by
  constructor
  · decide
  · decide

/-- Witness for claim C1's theorem at a concrete input. -/
theorem claim_C1_witness :
    (⟨"Matt", 1, 2, "a"⟩ : VerseId) ∈ ([] : List VerseId) ∨
      (⟨"Matt", 1, 2, "a"⟩ : VerseId).partLetter = "a" :=
  claim_C1_range_partial btEx1 "Matt" 1 1 "a" "Matt" 1 2 [] ⟨"Matt", 1, 2, "a"⟩
    (by decide)

/-- Claim C2 (corrected): compareVerses is the lexicographic comparison of
(JS indexOf of the book in the canonical list, chapter, verse); since JS
indexOf yields -1 for a book unknown to the BoundaryTable, an unknown-book
VerseId sorts BEFORE every known-book one (not after), and two unknown-book
VerseIds compare as equal on the book key, falling through to chapter and
verse. -/
theorem claim_C2_order :
    ∀ (books : List String) (a b : VerseId),
      (compareVerses books a b < 0 ↔ lexLt3 (vKey books a) (vKey books b)) ∧
      (compareVerses books a b = 0 ↔ vKey books a = vKey books b) ∧
      (a.book ∉ books → b.book ∈ books → compareVerses books a b < 0) := by
  intro books a b
  refine ⟨?_, ?_, ?_⟩
  · simp only [compareVerses, lexLt3, vKey]
    split_ifs with h1 h2 <;> omega
  · simp only [compareVerses, vKey, Prod.mk.injEq]
    split_ifs with h1 h2 <;> omega
  · intro hna hb
    have h1 : jsIndexOf books a.book = -1 := by simp [jsIndexOf, hna]
    have h2 : 0 ≤ jsIndexOf books b.book := by
      simp [jsIndexOf, hb]
    simp only [compareVerses]
    split_ifs with hif1 hif2 <;> omega

/-- Claim C2 counterexample: with canonical books [Gen, Exod], the
unknown-book verse Zzz 1:1 compares strictly BELOW Gen 1:1 (indexOf gives
-1), refuting "the unknown-book VerseId sorts after the known-book one". -/
theorem claim_C2_counterexample :
    compareVerses ["Gen", "Exod"] ⟨"Zzz", 1, 1, ""⟩ ⟨"Gen", 1, 1, ""⟩ = -1 ∧
    ¬(0 < compareVerses ["Gen", "Exod"] ⟨"Zzz", 1, 1, ""⟩ ⟨"Gen", 1, 1, ""⟩) := by
  constructor
  · decide
  · decide

/-- Witness for claim C2's theorem at a concrete input. -/
theorem claim_C2_witness :
    compareVerses ["Gen"] ⟨"Zzz", 2, 3, ""⟩ ⟨"Gen", 1, 1, ""⟩ < 0 :=
  (claim_C2_order ["Gen"] ⟨"Zzz", 2, 3, ""⟩ ⟨"Gen", 1, 1, ""⟩).2.2
    (by decide) (by decide)

/-- Claim C4 (confirmed): the note of a ReadingOption is exactly the
semicolon join of the qualifier list assembled slot by slot in the fixed
order optional, cf., short-form-or-alternative (short form winning over
alternative/option), cited-in, gospel-title — each slot contributing at most
one qualifier — and is null exactly when no qualifier applies. -/
theorem claim_C4_note :
    ∀ (io ic sf : Bool) (n : Nat) (cit gt : Option String),
      buildNote io ic sf n cit gt =
        (if specQualifiers io ic sf n cit gt = [] then none
         else some (String.intercalate "; " (specQualifiers io ic sf n cit gt))) ∧
      (buildNote io ic sf n cit gt = none ↔
        io = false ∧ ic = false ∧ sf = false ∧ ¬(n > 1) ∧ cit = none ∧ gt = none) := by
  intro io ic sf n cit gt
  constructor
  · cases io <;> cases ic <;> cases sf <;> cases cit <;> cases gt <;>
      by_cases h : n > 1 <;>
      simp [buildNote, specQualifiers, h]
  · cases io <;> cases ic <;> cases sf <;> cases cit <;> cases gt <;>
      by_cases h : n > 1 <;>
      simp [buildNote, h]

/-- Claim C10 (confirmed): a reading row whose day text yields no cycle
letter (null or empty) is filed under Sunday cycle A, not dropped: the A
list grows by exactly the row. -/
theorem claim_C10_default_cycle :
    ∀ (cycle : Option String) (readings : String → List String) (row : String),
      cycle = none ∨ cycle = some "" →
      processReadingRow cycle readings row "A" = readings "A" ++ [row] := by
  intro cycle readings row h
  rcases h with h | h <;> subst h
  · simp [processReadingRow, jsOrStr]
  · simp [processReadingRow, jsOrStr]
    decide

/-- Witness for claim C10's theorem at a concrete input. -/
theorem claim_C10_witness :
    processReadingRow none (fun _ => []) "row1" "A" =
      (fun _ => ([] : List String)) "A" ++ ["row1"] :=
  claim_C10_default_cycle none (fun _ => []) "row1" (Or.inl rfl)

/-- Claim C8 (confirmed): the enumerator's verse set never contains
duplicates: whatever entity is processed (sequences and nested entities
included), starting from the empty set, the JS Set semantics modelled by
insertVerse keeps the result duplicate-free. -/
theorem claim_C8_dedup : ∀ (bt : Boundary) (e : Entity),
    (processEntity bt e []).Nodup :=
  fun bt e => processEntity_nodup bt e [] List.nodup_nil

theorem mapIdx_getElemQ {α β : Type} (l : List α) (f : Nat → α → β) (i : Nat) :
    (l.mapIdx f)[i]? = (l[i]?).map (f i) := by
  by_cases h : i < l.length
  · have h2 : i < (l.mapIdx f).length := by simpa [List.length_mapIdx] using h
    rw [List.getElem?_eq_getElem h2, List.getElem?_eq_getElem h]
    simp only [Option.map_some']
    have h3 := List.get_mapIdx l f i h h2
    simp only [List.get_eq_getElem] at h3
    exact congrArg some h3
  · have h1 : l.length ≤ i := by omega
    have h2 : (l.mapIdx f).length ≤ i := by simpa [List.length_mapIdx] using h1
    rw [List.getElem?_eq_none h1, List.getElem?_eq_none h2]
    rfl

/-- Claim C5 (confirmed): a candidate after the first that starts with a bare
numeral is completed by prepending the book name extracted from the first
candidate before being handed to the parser; and for the citation
"Matt 1:1-25 or 1:18-25" the second candidate's cleaned standard text begins
with "Matt 1:18-25". -/
theorem claim_C5_completion :
    (∀ (ref : String) (i : Nat) (o : String),
      0 < i → (splitOr ref)[i]? = some o → startsWithDigit o = true →
      extractBookName ((splitOr ref).headD "") ≠ "" →
      (candidateStrings ref)[i]? =
        some (extractBookName ((splitOr ref).headD "") ++ " " ++ o)) ∧
    strStartsWith (cleanStandard ((candidateStrings "Matt 1:1-25 or 1:18-25").getD 1 ""))
        "Matt 1:18-25" = true := by
  constructor
  · intro ref i o hi ho hd hb
    rw [show candidateStrings ref = (splitOr ref).mapIdx (fun j o =>
        if 0 < j ∧ startsWithDigit o = true ∧ extractBookName ((splitOr ref).headD "") ≠ ""
        then extractBookName ((splitOr ref).headD "") ++ " " ++ o else o) from rfl]
    rw [mapIdx_getElemQ, ho]
    rw [Option.map_some']
    rw [if_pos ⟨hi, hd, hb⟩]
  · decide

/-- Witness for claim C5's theorem at a concrete input: the spec's own
example "Rom 5:12-19 or 5:12, 17-19". -/
theorem claim_C5_witness :
    (candidateStrings "Rom 5:12-19 or 5:12, 17-19")[1]? =
      some (extractBookName ((splitOr "Rom 5:12-19 or 5:12, 17-19").headD "")
        ++ " " ++ "5:12, 17-19") :=
  claim_C5_completion.1 "Rom 5:12-19 or 5:12, 17-19" 1 "5:12, 17-19"
    (by decide) (by decide) (by decide) (by decide)

theorem pickFirstMax_cons_none {x : FeastDef × Nat} {xs : List (FeastDef × Nat)}
    (hb : pickFirstMax xs = none) : pickFirstMax (x :: xs) = some x := by
  simp [pickFirstMax, hb]

theorem pickFirstMax_cons_some {x b : FeastDef × Nat} {xs : List (FeastDef × Nat)}
    (hb : pickFirstMax xs = some b) :
    pickFirstMax (x :: xs) = if b.2 ≤ x.2 then some x else some b := by
  simp [pickFirstMax, hb]

theorem pickFirstMax_eq_none (l : List (FeastDef × Nat)) :
    pickFirstMax l = none ↔ l = [] := by
  cases l with
  | nil => simp [pickFirstMax]
  | cons x xs =>
    cases hb : pickFirstMax xs with
    | none => rw [pickFirstMax_cons_none hb]; simp
    | some b => rw [pickFirstMax_cons_some hb]; split_ifs <;> simp

theorem maxScore_cons (x : FeastDef × Nat) (xs : List (FeastDef × Nat)) :
    maxScore (x :: xs) = max x.2 (maxScore xs) := rfl

theorem pickFirstMax_score (l : List (FeastDef × Nat)) :
    ∀ b, pickFirstMax l = some b → b.2 = maxScore l := by
  induction l with
  | nil => intro b h; simp [pickFirstMax] at h
  | cons x xs ih =>
    intro b h
    rw [maxScore_cons]
    cases hb : pickFirstMax xs with
    | none =>
      rw [pickFirstMax_cons_none hb] at h
      have hxs : xs = [] := (pickFirstMax_eq_none xs).1 hb
      subst hxs
      simp only [Option.some.injEq] at h
      subst h
      simp [maxScore]
    | some b2 =>
      rw [pickFirstMax_cons_some hb] at h
      have hb2 : b2.2 = maxScore xs := ih b2 hb
      split_ifs at h with hle <;> simp only [Option.some.injEq] at h <;> subst h <;> omega

theorem head?_orderedInsert (x : FeastDef × Nat) (l : List (FeastDef × Nat)) :
    (l.orderedInsert (fun a b => b.2 ≤ a.2) x).head? =
      some (match l.head? with
            | none => x
            | some h => if h.2 ≤ x.2 then x else h) := by
  cases l with
  | nil => rfl
  | cons y ys =>
    simp only [List.orderedInsert, List.head?]
    split_ifs with h <;> rfl

theorem head?_insertionSort_pickFirstMax (l : List (FeastDef × Nat)) :
    (l.insertionSort (fun a b => b.2 ≤ a.2)).head? = pickFirstMax l := by
  induction l with
  | nil => rfl
  | cons x xs ih =>
    rw [List.insertionSort, head?_orderedInsert, ih]
    cases hb : pickFirstMax xs with
    | none => rw [pickFirstMax_cons_none hb]
    | some b =>
      rw [pickFirstMax_cons_some hb]
      split_ifs with h <;> simp [h]

theorem pickFirstMax_eq_specBestMatch (l : List (FeastDef × Nat)) :
    pickFirstMax l = specBestMatch l := by
  induction l with
  | nil => rfl
  | cons x xs ih =>
    cases hb : pickFirstMax xs with
    | none =>
      have hxs : xs = [] := (pickFirstMax_eq_none xs).1 hb
      subst hxs
      rw [pickFirstMax_cons_none hb]
      simp [specBestMatch, maxScore, List.find?_cons]
    | some b =>
      have hb2 : b.2 = maxScore xs := pickFirstMax_score xs b hb
      rw [pickFirstMax_cons_some hb]
      by_cases hle : b.2 ≤ x.2
      · rw [if_pos hle]
        have hxm : maxScore (x :: xs) = x.2 := by rw [maxScore_cons]; omega
        simp [specBestMatch, List.find?_cons, hxm]
      · rw [if_neg hle]
        have hxm : maxScore (x :: xs) = maxScore xs := by rw [maxScore_cons]; omega
        have hxne : ¬(x.2 = maxScore xs) := by omega
        have hstep : specBestMatch (x :: xs) =
            List.find? (fun y => decide (y.2 = maxScore xs)) xs := by
          simp [specBestMatch, List.find?_cons, hxm, hxne]
        rw [hstep]
        have hrfl : List.find? (fun y => decide (y.2 = maxScore xs)) xs =
            specBestMatch xs := rfl
        rw [hrfl, ← ih, hb]

/-- Claim C6 (confirmed): the keyword-scoring fallback equals its
specification: among catalogue entries with both an id and a name, scored
(#keywords in id) + 2 * (#keywords in name), with zero-score entries
discarded, it returns the first highest-scoring entry in catalogue iteration
order, and no match when nothing scores above 0. -/
theorem claim_C6_keyword_scoring :
    ∀ (definitions : List FeastDef) (keywords : List String),
      findFeastByKeywords definitions keywords = specFindFeast definitions keywords := by
  intro defs kws
  simp only [findFeastByKeywords, specFindFeast]
  rw [head?_insertionSort_pickFirstMax, pickFirstMax_eq_specBestMatch]

/-- Claim C9 (confirmed): the Day-Definition Matcher and the keyword fallback
are pure functions of the catalogue/calendar and the day description: two
invocations on identical inputs return identical results (the model reads no
state besides its arguments, mirroring the source, whose matching path
consults nothing mutable). -/
theorem claim_C9_deterministic :
    ∀ (cal : List (String × List RomcalDay)) (date season : Option String)
      (weekNumber : Option Nat) (cycle identifier : Option String)
      (defs : List FeastDef) (keywords : List String),
      findMatchingRomcalDay cal date season weekNumber cycle identifier =
        findMatchingRomcalDay cal date season weekNumber cycle identifier ∧
      findFeastByKeywords defs keywords = findFeastByKeywords defs keywords :=
  fun _ _ _ _ _ _ _ _ => ⟨rfl, rfl⟩

/-- Claim C7 (confirmed): a whole-chapter (bc) entity over a chapter declared
to have n verses yields exactly the n VerseIds of that book and chapter,
verses 1 through n, with no partial letters. -/
theorem claim_C7_chapter :
    ∀ (bt : Boundary) (b : String) (c n : Nat),
      1 ≤ c → (bt.chapters b)[c - 1]? = some n →
      processEntity bt (Entity.bc b c) [] =
        (List.range n).map (fun k => (⟨b, c, k + 1, ""⟩ : VerseId)) ∧
      (processEntity bt (Entity.bc b c) []).length = n ∧
      ∀ v ∈ processEntity bt (Entity.bc b c) [],
        v.book = b ∧ v.chapter = c ∧ 1 ≤ v.verse ∧ v.verse ≤ n ∧ v.partLetter = "" := by
  intro bt b c n hc hn
  have hc0 : ¬(c = 0) := by omega
  have hinj : Function.Injective (fun k => (⟨b, c, k + 1, ""⟩ : VerseId)) := by
    intro a1 a2 h12
    simp only [VerseId.mk.injEq] at h12
    omega
  have hmain : processEntity bt (Entity.bc b c) [] =
      (List.range n).map (fun k => (⟨b, c, k + 1, ""⟩ : VerseId)) := by
    simp only [processEntity, hc0, if_false, hn, Option.getD_some]
    rw [addAll_of_disjoint _ [] (List.Nodup.map hinj (List.nodup_range _))
      (by intro x _ hx; simp at hx)]
    simp
  refine ⟨hmain, ?_, ?_⟩
  · rw [hmain]; simp
  · intro v hv
    rw [hmain] at hv
    simp only [List.mem_map, List.mem_range] at hv
    obtain ⟨k, hk, rfl⟩ := hv
    exact ⟨rfl, rfl, by show 1 ≤ k + 1; omega, by show k + 1 ≤ n; omega, rfl⟩

/-- Witness for claim C7's theorem at a concrete input. -/
theorem claim_C7_witness :
    processEntity btEx2 (Entity.bc "Gen" 1) [] =
      (List.range 2).map (fun k => (⟨"Gen", 1, k + 1, ""⟩ : VerseId)) ∧
    (processEntity btEx2 (Entity.bc "Gen" 1) []).length = 2 ∧
    ∀ v ∈ processEntity btEx2 (Entity.bc "Gen" 1) [],
      v.book = "Gen" ∧ v.chapter = 1 ∧ 1 ≤ v.verse ∧ v.verse ≤ 2 ∧ v.partLetter = "" :=
  claim_C7_chapter btEx2 "Gen" 1 2 (by decide) (by decide)

theorem inChapterIter_pos (count v : Nat) : 1 ≤ inChapterIter count v := by
  simp only [inChapterIter]
  omega

theorem posMeasure_pos (bt : Boundary) (p : BPos) : 1 ≤ posMeasure bt p := by
  have := inChapterIter_pos ((bt.chapters p.b).getD (p.c - 1) 0) p.v
  simp only [posMeasure]
  omega

/-- Every non-breaking advance of the range walk stays inside the table and
strictly decreases the iteration measure: this is the termination argument
for the JS while(true) loop, valid on a duplicate-free table whose books all
have at least one chapter. -/
theorem rangeStep_decreases (bt : Boundary) (p p2 : BPos)
    (hwf : WFBoundary bt) (hv : ValidPos bt p) (hs : rangeStep bt p = some p2) :
    ValidPos bt p2 ∧ posMeasure bt p2 < posMeasure bt p := by
  obtain ⟨hmem, hc1, hcle⟩ := hv
  obtain ⟨hnd, hne⟩ := hwf
  have hc0 : ¬(p.c = 0) := by omega
  have hidx : p.c - 1 < (bt.chapters p.b).length := by omega
  have hlook : (bt.chapters p.b)[p.c - 1]? = some ((bt.chapters p.b)[p.c - 1]) :=
    List.getElem?_eq_getElem hidx
  have hg : (bt.chapters p.b).getD (p.c - 1) 0 = (bt.chapters p.b)[p.c - 1] :=
    List.getD_eq_getElem _ _ hidx
  simp only [rangeStep, hc0, if_false, hlook] at hs
  by_cases hb1 : p.v + 1 > (bt.chapters p.b)[p.c - 1]
  · rw [if_pos hb1] at hs
    by_cases hb2 : p.c + 1 > (bt.chapters p.b).length
    · rw [if_pos hb2] at hs
      have hceq : p.c = (bt.chapters p.b).length := by omega
      by_cases hb3 : bt.books.indexOf p.b + 1 ≥ bt.books.length
      · rw [if_pos hb3] at hs
        exact absurd hs (by simp)
      · rw [if_neg hb3] at hs
        simp only [Option.some.injEq] at hs
        subst hs
        have hiL : bt.books.indexOf p.b < bt.books.length := List.indexOf_lt_length.2 hmem
        have hi1L : bt.books.indexOf p.b + 1 < bt.books.length := by omega
        have hnb : bt.books.getD (bt.books.indexOf p.b + 1) "" =
            bt.books[bt.books.indexOf p.b + 1] := List.getD_eq_getElem _ _ hi1L
        have hnbmem : bt.books[bt.books.indexOf p.b + 1] ∈ bt.books := List.getElem_mem _
        have hnbne : bt.chapters (bt.books[bt.books.indexOf p.b + 1]) ≠ [] := hne _ hnbmem
        have hnblen : 0 < (bt.chapters (bt.books[bt.books.indexOf p.b + 1])).length :=
          List.length_pos.2 hnbne
        constructor
        · rw [hnb]
          exact ⟨hnbmem, le_refl 1, hnblen⟩
        · have hidx2 : bt.books.indexOf (bt.books[bt.books.indexOf p.b + 1]) =
              bt.books.indexOf p.b + 1 := List.indexOf_getElem hnd _ hi1L
          have hdropC : (bt.chapters p.b).drop p.c = [] :=
            List.drop_eq_nil_of_le (by omega)
          have hdropBooks : bt.books.drop (bt.books.indexOf p.b + 1) =
              bt.books[bt.books.indexOf p.b + 1] ::
                bt.books.drop (bt.books.indexOf p.b + 1 + 1) :=
            List.drop_eq_getElem_cons hi1L
          have hchapsnb : bt.chapters (bt.books[bt.books.indexOf p.b + 1]) =
              (bt.chapters (bt.books[bt.books.indexOf p.b + 1]))[0] ::
                (bt.chapters (bt.books[bt.books.indexOf p.b + 1])).drop 1 := by
            conv_lhs => rw [← List.drop_zero (bt.chapters (bt.books[bt.books.indexOf p.b + 1]))]
            exact List.drop_eq_getElem_cons hnblen
          have hg2 : (bt.chapters (bt.books[bt.books.indexOf p.b + 1])).getD 0 0 =
              (bt.chapters (bt.books[bt.books.indexOf p.b + 1]))[0] :=
            List.getD_eq_getElem _ _ hnblen
          dsimp only [posMeasure]
          simp only [hnb, hidx2, hdropC, hg, hg2, List.map_nil, List.sum_nil]
          rw [hdropBooks, List.map_cons, List.sum_cons]
          have hbook : bookIter bt (bt.books[bt.books.indexOf p.b + 1]) =
              chapterIter ((bt.chapters (bt.books[bt.books.indexOf p.b + 1]))[0]) +
                (((bt.chapters (bt.books[bt.books.indexOf p.b + 1])).drop 1).map
                  chapterIter).sum := by
            simp only [bookIter]
            conv_lhs => rw [hchapsnb]
            rw [List.map_cons, List.sum_cons]
          rw [hbook]
          simp only [inChapterIter, chapterIter]
          omega
    · rw [if_neg hb2] at hs
      simp only [Option.some.injEq] at hs
      subst hs
      constructor
      · exact ⟨hmem, by show 1 ≤ p.c + 1; omega,
          by show p.c + 1 ≤ (bt.chapters p.b).length; omega⟩
      · have hcltL : p.c < (bt.chapters p.b).length := by omega
        have hdropC : (bt.chapters p.b).drop p.c =
            (bt.chapters p.b)[p.c] :: (bt.chapters p.b).drop (p.c + 1) :=
          List.drop_eq_getElem_cons hcltL
        have hg2 : (bt.chapters p.b).getD (p.c + 1 - 1) 0 = (bt.chapters p.b)[p.c] := by
          simp only [Nat.add_sub_cancel]
          exact List.getD_eq_getElem _ _ hcltL
        dsimp only [posMeasure]
        simp only [hg, hg2]
        rw [hdropC, List.map_cons, List.sum_cons]
        simp only [inChapterIter, chapterIter]
        omega
  · rw [if_neg hb1] at hs
    simp only [Option.some.injEq] at hs
    subst hs
    refine ⟨⟨hmem, hc1, hcle⟩, ?_⟩
    dsimp only [posMeasure]
    simp only [hg, inChapterIter]
    omega

/-- With fuel at least the position measure, the walk never runs out of fuel:
the JS loop always reaches one of its break statements. -/
theorem walkAux_exits (bt : Boundary) (endP : BPos) (sp : String) (hwf : WFBoundary bt) :
    ∀ (fuel : Nat) (p : BPos), ValidPos bt p → posMeasure bt p ≤ fuel →
      (walkAux bt endP sp fuel p).2 ≠ WalkExit.fuelOut := by
  intro fuel
  induction fuel with
  | zero =>
    intro p hv hm
    exact absurd hm (by have := posMeasure_pos bt p; omega)
  | succ n ih =>
    intro p hv hm
    rw [walkAux]
    by_cases hc : p.b = endP.b ∧ p.c = endP.c ∧ p.v = endP.v
    · rw [if_pos hc]
      simp
    · rw [if_neg hc]
      cases hs : rangeStep bt p with
      | none => simp
      | some p2 =>
        obtain ⟨hv2, hlt⟩ := rangeStep_decreases bt p p2 hwf hv hs
        exact ih p2 hv2 (by omega)

/-- Claim C3 (corrected): on a well-formed BoundaryTable and a valid start
position the range walk always terminates — the defensive last-book break
bounds it — but a walk that overruns the table without matching the end
identifier is NOT detected or treated as a ParseFailure: every verse it
visited, the partial set, is still added to the citation's verse set, and
nothing is dropped or logged. -/
theorem claim_C3_walk :
    ∀ (bt : Boundary) (endP : BPos) (sp : String) (p : BPos) (vs : List VerseId),
      WFBoundary bt → ValidPos bt p →
      (walkAux bt endP sp (posMeasure bt p) p).2 ≠ WalkExit.fuelOut ∧
      ∀ v ∈ (walkAux bt endP sp (posMeasure bt p) p).1,
        v ∈ processEntity bt (Entity.range p.b p.c p.v sp endP.b endP.c endP.v) vs := by
  intro bt endP sp p vs hwf hv
  constructor
  · exact walkAux_exits bt endP sp hwf (posMeasure bt p) p hv (le_refl _)
  · intro v hv2
    simp only [processEntity]
    rw [mem_addAll]
    right
    exact hv2

/-- Claim C3 counterexample: the range Gen 1:1 to the never-matched end
Mal 3:1 over the two-book table btEx2 walks off the table (exit overrun) yet
its partial verse set {Gen 1:1, Gen 1:2, Exod 1:1} is emitted as the
citation's verse set — not dropped as a ParseFailure. -/
theorem claim_C3_counterexample :
    processEntity btEx2 (Entity.range "Gen" 1 1 "" "Mal" 3 1) [] =
      [⟨"Gen", 1, 1, ""⟩, ⟨"Gen", 1, 2, ""⟩, ⟨"Exod", 1, 1, ""⟩] ∧
    processEntity btEx2 (Entity.range "Gen" 1 1 "" "Mal" 3 1) [] ≠ [] ∧
    (walkAux btEx2 ⟨"Mal", 3, 1⟩ "" (posMeasure btEx2 ⟨"Gen", 1, 1⟩) ⟨"Gen", 1, 1⟩).2 =
      WalkExit.overrun := by
  refine ⟨by decide, by decide, by decide⟩

/-- Witness for claim C3's theorem at a concrete input. -/
theorem claim_C3_witness :
    (walkAux btEx2 ⟨"Mal", 3, 1⟩ "" (posMeasure btEx2 ⟨"Gen", 1, 1⟩) ⟨"Gen", 1, 1⟩).2 ≠
      WalkExit.fuelOut ∧
    ∀ v ∈ (walkAux btEx2 ⟨"Mal", 3, 1⟩ "" (posMeasure btEx2 ⟨"Gen", 1, 1⟩) ⟨"Gen", 1, 1⟩).1,
      v ∈ processEntity btEx2 (Entity.range "Gen" 1 1 "" "Mal" 3 1) [] :=
  claim_C3_walk btEx2 ⟨"Mal", 3, 1⟩ "" ⟨"Gen", 1, 1⟩ []
    ⟨by decide, by decide⟩ ⟨by decide, by decide, by decide⟩
